import Mathlib

/-!
# Verification of the locus-chunking logic of `alphagenome`

Shallow embedding of the interval-chunking loop of
`src/acquire_17p11_2_locus.py` (function `main`, the `while current_pos <
full_locus.end` loop), of the spec-level `chunk` operation that wraps it,
and of `get_api_key` from `src/src/alphagenome/colab_utils.py`.

Genomic coordinates are non-negative Python integers; we model them as
`Nat`.  The Python `while` loop is modelled with an explicit fuel
parameter; the top-level entry point supplies `parent.end - parent.start`
units of fuel, which is proved sufficient whenever the chunk size is
positive (Python's loop would diverge for a non-positive chunk size, and
the fixed `CHUNK_SIZE` used by the script is positive).
-/

namespace AlphaGenome

/-- `genome.Interval`: a half-open, zero-based coordinate range on a named
chromosome.  Mirrors the fields used by the script (`chromosome`, `start`,
`end`); `end` is a Lean keyword, hence the guillemets. -/
structure Interval where
  chromosome : String
  start : Nat
  «end» : Nat
  deriving DecidableEq, Repr

/-- `Interval.width`: the derived attribute `end - start`. -/
def Interval.width (i : Interval) : Nat := i.«end» - i.start

/-- `CHUNK_SIZE = dna_client.SEQUENCE_LENGTH_500KB` (524,288 bp). -/
def CHUNK_SIZE : Nat := 524288

/-- `LOCUS_17P11_2_START` from the script. -/
def LOCUS_17P11_2_START : Nat := 16700000

/-- `LOCUS_17P11_2_END` from the script. -/
def LOCUS_17P11_2_END : Nat := 20500000

/-- The chunking `while` loop of `main` in `acquire_17p11_2_locus.py`:

```
current_pos = full_locus.start
while current_pos < full_locus.end:
  chunk_end = min(current_pos + CHUNK_SIZE, full_locus.end)
  chunk = genome.Interval(chromosome, start=current_pos, end=chunk_end)
  if chunk.width == CHUNK_SIZE or chunk.width == full_locus.end - current_pos:
    chunks.append(chunk)
  current_pos = chunk_end
```

`stop` is `full_locus.end`, `size` is `CHUNK_SIZE`, `pos` is
`current_pos`; `fuel` bounds the number of iterations (the source loop has
no such bound; the wrapper `chunksOf` supplies enough fuel for every
positive `size`). -/
def chunkLoop (chrom : String) (stop size : Nat) : Nat → Nat → List Interval
  | _, 0 => []
  | pos, fuel + 1 =>
    if pos < stop then
      let chunkEnd := min (pos + size) stop
      let chunk : Interval := ⟨chrom, pos, chunkEnd⟩
      if chunk.width = size ∨ chunk.width = stop - pos then
        chunk :: chunkLoop chrom stop size chunkEnd fuel
      else
        chunkLoop chrom stop size chunkEnd fuel
    else []

/-- The chunking loop run on a parent interval, as `main` runs it on
`full_locus` with `CHUNK_SIZE`: starts at `parent.start`, stops at
`parent.end`, and emits chunks on the parent's chromosome (the script
writes the literal `'chr17'` in both the parent and the chunks). -/
def chunksOf (parent : Interval) (size : Nat) : List Interval :=
  chunkLoop parent.chromosome parent.«end» size parent.start
    (parent.«end» - parent.start)

/-- The spec's `InvalidIntervalError`. -/
inductive InvalidIntervalError where
  | mk : InvalidIntervalError
  deriving DecidableEq, Repr

/-- Modelled from the spec: the operation
`chunk(parent, target_width, supported_widths)` of §4.1 with the failure
conditions of §7 ("raised when the parent interval is degenerate
(width <= 0) or the requested target width is not in the supported set").
The source embeds only the tiling loop inline in `main` (with
`target_width` fixed to `CHUNK_SIZE`); the validation against
`supported_widths` and the `InvalidIntervalError` exist only in the spec. -/
def chunk (parent : Interval) (target_width : Nat)
    (supported_widths : List Nat) : Except InvalidIntervalError (List Interval) :=
  if parent.width = 0 ∨ target_width ∉ supported_widths then
    Except.error InvalidIntervalError.mk
  else
    Except.ok (chunksOf parent target_width)

/-- The same loop with the acceptance filter removed: every candidate chunk
is appended unconditionally.  Used to state that the filter in the source
loop is dead code (spec §9). -/
def chunkLoopNoFilter (chrom : String) (stop size : Nat) : Nat → Nat → List Interval
  | _, 0 => []
  | pos, fuel + 1 =>
    if pos < stop then
      let chunkEnd := min (pos + size) stop
      (⟨chrom, pos, chunkEnd⟩ : Interval) ::
        chunkLoopNoFilter chrom stop size chunkEnd fuel
    else []

/-- `chunksOf` with the acceptance filter removed. -/
def chunksOfNoFilter (parent : Interval) (size : Nat) : List Interval :=
  chunkLoopNoFilter parent.chromosome parent.«end» size parent.start
    (parent.«end» - parent.start)

/-- The three `google.colab.userdata` exceptions that `get_api_key`
catches. -/
inductive ColabSecretError where
  | notebookAccessError : ColabSecretError
  | secretNotFoundError : ColabSecretError
  | timeoutException : ColabSecretError
  deriving DecidableEq, Repr

/-- `get_api_key` from `src/src/alphagenome/colab_utils.py`.

`env` models `os.environ.get` (`none` when the variable is unset);
`inColab` models the module-level `IN_COLAB` flag; `userdataGet` models
`userdata.get`, returning either the secret value or one of the three
caught exceptions; `Except.error msg` models `raise ValueError(msg)`.
Python's walrus test `if api_key := os.environ.get(secret):` is falsy for
both `None` and the empty string, hence the `isEmpty` test. -/
def get_api_key (env : String → Option String) (inColab : Bool)
    (userdataGet : String → Except ColabSecretError String)
    (secret : String) : Except String String :=
  let notFound : Except String String :=
    if inColab then
      match userdataGet secret with
      | Except.ok k => Except.ok k
      | Except.error _ =>
          Except.error
            ("Cannot find or access API key in Colab secrets with secret=" ++
              secret ++ ".")
    else
      Except.error ("Cannot find API key with secret=" ++ secret ++ ".")
  match env secret with
  | some v => if v.isEmpty then notFound else Except.ok v
  | none => notFound

/-! ## Helper lemmas about the chunking loop -/

/-- Once the position has reached the stop, the loop emits nothing. -/
theorem chunkLoop_of_stop_le {chrom : String} {stop size pos : Nat}
    (fuel : Nat) (h : stop ≤ pos) :
    chunkLoop chrom stop size pos fuel = [] := by
  cases fuel with
  | zero => rfl
  | succ f => simp [chunkLoop, Nat.not_lt.mpr h]

/-- One iteration of the loop while `pos < stop`: the acceptance filter
always succeeds (the candidate's width is `size` or the remaining
distance, by definition of `min`), so the candidate is appended and the
position advances to `min (pos + size) stop`. -/
theorem chunkLoop_step {chrom : String} {stop size pos : Nat} (fuel : Nat)
    (h : pos < stop) :
    chunkLoop chrom stop size pos (fuel + 1) =
      (⟨chrom, pos, min (pos + size) stop⟩ : Interval) ::
        chunkLoop chrom stop size (min (pos + size) stop) fuel := by
  have hfilter : (⟨chrom, pos, min (pos + size) stop⟩ : Interval).width = size ∨
      (⟨chrom, pos, min (pos + size) stop⟩ : Interval).width = stop - pos := by
    simp only [Interval.width]
    omega
  simp only [chunkLoop, if_pos h, if_pos hfilter]

/-- The loop with the filter and the loop without it coincide, for every
input: the filter's condition is always true. -/
theorem chunkLoop_eq_noFilter (chrom : String) (stop size : Nat) :
    ∀ fuel pos,
      chunkLoop chrom stop size pos fuel = chunkLoopNoFilter chrom stop size pos fuel := by
  intro fuel
  induction fuel with
  | zero => intro pos; rfl
  | succ f ih =>
      intro pos
      by_cases h : pos < stop
      · rw [chunkLoop_step f h]
        simp only [chunkLoopNoFilter, if_pos h]
        rw [ih]
      · rw [chunkLoop_of_stop_le (f + 1) (Nat.not_lt.mp h)]
        simp only [chunkLoopNoFilter, if_neg h]

/-- While `pos < stop`, the emitted list is nonempty and starts with the
chunk `[pos, min (pos + size) stop)`. -/
theorem chunkLoop_head {chrom : String} {stop size pos fuel : Nat}
    (h : pos < stop) (hf : 0 < fuel) :
    (chunkLoop chrom stop size pos fuel).head? =
      some (⟨chrom, pos, min (pos + size) stop⟩ : Interval) := by
  cases fuel with
  | zero => omega
  | succ f => rw [chunkLoop_step f h]; rfl

/-- With positive size, positive remaining distance and sufficient fuel,
the last emitted chunk ends exactly at `stop`. -/
theorem chunkLoop_getLast {chrom : String} {stop size : Nat} (hs : 0 < size) :
    ∀ fuel pos, pos < stop → stop - pos ≤ fuel →
      (chunkLoop chrom stop size pos fuel).getLast?.map Interval.«end» = some stop := by
  intro fuel
  induction fuel with
  | zero => intro pos h hf; omega
  | succ f ih =>
      intro pos h hf
      rw [chunkLoop_step f h]
      by_cases hm : min (pos + size) stop < stop
      · have hrec := ih (min (pos + size) stop) hm (by omega)
        cases hrest : chunkLoop chrom stop size (min (pos + size) stop) f with
        | nil => rw [hrest] at hrec; simp at hrec
        | cons b t =>
            rw [hrest] at hrec
            rw [List.getLast?_cons_cons]
            exact hrec
      · have hmeq : min (pos + size) stop = stop := by omega
        rw [chunkLoop_of_stop_le f (by omega)]
        simp [hmeq]

/-- Adjacent emitted chunks meet exactly: each chunk's start is the
previous chunk's end. -/
theorem chunkLoop_chain {chrom : String} {stop size : Nat} :
    ∀ fuel pos,
      List.Chain' (fun a b => b.start = a.«end»)
        (chunkLoop chrom stop size pos fuel) := by
  intro fuel
  induction fuel with
  | zero => intro pos; simp [chunkLoop]
  | succ f ih =>
      intro pos
      by_cases h : pos < stop
      · rw [chunkLoop_step f h]
        rw [List.chain'_cons']
        refine ⟨?_, ih (min (pos + size) stop)⟩
        intro b hb
        cases f with
        | zero => simp [chunkLoop] at hb
        | succ g =>
            by_cases hm : min (pos + size) stop < stop
            · rw [chunkLoop_head hm (Nat.succ_pos g)] at hb
              simp only [Option.mem_def, Option.some.injEq] at hb
              subst hb
              rfl
            · rw [chunkLoop_of_stop_le (g + 1) (by omega)] at hb
              simp at hb
      · rw [chunkLoop_of_stop_le (f + 1) (Nat.not_lt.mp h)]
        simp

/-- Every emitted chunk lies inside `[pos, stop)`, is nondegenerate, and
carries the loop's chromosome label. -/
theorem chunkLoop_mem {chrom : String} {stop size : Nat} (hs : 0 < size) :
    ∀ fuel pos c, c ∈ chunkLoop chrom stop size pos fuel →
      c.chromosome = chrom ∧ pos ≤ c.start ∧ c.start < c.«end» ∧ c.«end» ≤ stop := by
  intro fuel
  induction fuel with
  | zero => intro pos c hc; simp [chunkLoop] at hc
  | succ f ih =>
      intro pos c hc
      by_cases h : pos < stop
      · rw [chunkLoop_step f h] at hc
        rcases List.mem_cons.mp hc with hc | hc
        · subst hc
          refine ⟨rfl, Nat.le_refl _, ?_, Nat.min_le_right _ _⟩
          simp only
          omega
        · obtain ⟨h1, h2, h3, h4⟩ := ih (min (pos + size) stop) c hc
          exact ⟨h1, by omega, h3, h4⟩
      · rw [chunkLoop_of_stop_le (f + 1) (Nat.not_lt.mp h)] at hc
        simp at hc

/-- Every emitted chunk except the last has width exactly `size`. -/
theorem chunkLoop_dropLast_width {chrom : String} {stop size : Nat}
    (hs : 0 < size) :
    ∀ fuel pos c, c ∈ (chunkLoop chrom stop size pos fuel).dropLast →
      c.width = size := by
  intro fuel
  induction fuel with
  | zero => intro pos c hc; simp [chunkLoop] at hc
  | succ f ih =>
      intro pos c hc
      by_cases h : pos < stop
      · rw [chunkLoop_step f h] at hc
        cases hrest : chunkLoop chrom stop size (min (pos + size) stop) f with
        | nil => rw [hrest] at hc; simp at hc
        | cons b t =>
            rw [hrest] at hc
            rw [List.dropLast_cons₂] at hc
            rcases List.mem_cons.mp hc with hc | hc
            · subst hc
              have hm : min (pos + size) stop < stop := by
                by_contra hm
                rw [chunkLoop_of_stop_le f (by omega)] at hrest
                exact List.noConfusion hrest
              simp only [Interval.width]
              omega
            · rw [← hrest] at hc
              exact ih (min (pos + size) stop) c hc
      · rw [chunkLoop_of_stop_le (f + 1) (Nat.not_lt.mp h)] at hc
        simp at hc

/-- The last emitted chunk has width at most `size`, with equality exactly
when the remaining distance `stop - pos` is a multiple of `size`. -/
theorem chunkLoop_getLast_width {chrom : String} {stop size : Nat}
    (hs : 0 < size) :
    ∀ fuel pos, pos < stop → stop - pos ≤ fuel →
      ∀ c, (chunkLoop chrom stop size pos fuel).getLast? = some c →
        c.width ≤ size ∧ (c.width = size ↔ (stop - pos) % size = 0) := by
  intro fuel
  induction fuel with
  | zero => intro pos h hf; omega
  | succ f ih =>
      intro pos h hf c hc
      rw [chunkLoop_step f h] at hc
      by_cases hm : min (pos + size) stop < stop
      · cases hrest : chunkLoop chrom stop size (min (pos + size) stop) f with
        | nil =>
            exfalso
            have := @chunkLoop_getLast chrom stop size hs f (min (pos + size) stop)
              hm (by omega)
            rw [hrest] at this
            simp at this
        | cons b t =>
            rw [hrest, List.getLast?_cons_cons] at hc
            rw [← hrest] at hc
            have hrec := ih (min (pos + size) stop) hm (by omega) c hc
            have hmin : min (pos + size) stop = pos + size := by omega
            have hmod : (stop - (pos + size)) % size = (stop - pos) % size := by
              have hsplit : stop - pos = (stop - (pos + size)) + size := by omega
              rw [hsplit, Nat.add_mod_right]
            rw [hmin, hmod] at hrec
            exact hrec
      · rw [chunkLoop_of_stop_le f (by omega)] at hc
        simp only [List.getLast?_singleton, Option.some.injEq] at hc
        subst hc
        have hmeq : min (pos + size) stop = stop := by omega
        simp only [Interval.width, hmeq]
        constructor
        · omega
        · constructor
          · intro hw
            rw [hw]
            exact Nat.mod_self size
          · intro hw
            rcases Nat.lt_or_ge (stop - pos) size with hlt | hge
            · rw [Nat.mod_eq_of_lt hlt] at hw
              omega
            · omega

/-- With positive size, any two sufficient fuel amounts compute the same
chunk list: the loop's result does not depend on the bound, which is the
fuel-based rendering of termination of the source's unbounded loop. -/
theorem chunkLoop_fuel_congr {chrom : String} {stop size : Nat}
    (hs : 0 < size) :
    ∀ fuel₁ pos fuel₂, stop - pos ≤ fuel₁ → stop - pos ≤ fuel₂ →
      chunkLoop chrom stop size pos fuel₁ = chunkLoop chrom stop size pos fuel₂ := by
  intro fuel₁
  induction fuel₁ with
  | zero =>
      intro pos fuel₂ h1 h2
      rw [chunkLoop_of_stop_le 0 (by omega), chunkLoop_of_stop_le fuel₂ (by omega)]
  | succ f ih =>
      intro pos fuel₂ h1 h2
      by_cases h : pos < stop
      · cases fuel₂ with
        | zero => omega
        | succ g =>
            rw [chunkLoop_step f h, chunkLoop_step g h]
            congr 1
            exact ih (min (pos + size) stop) g (by omega) (by omega)
      · rw [chunkLoop_of_stop_le (f + 1) (Nat.not_lt.mp h),
          chunkLoop_of_stop_le fuel₂ (Nat.not_lt.mp h)]

/-! ## Claim theorems -/

/-- C1: for every parent interval with `start < end` and every
`target_width > 0`, the emitted chunks, in order, exactly tile
`[parent.start, parent.end)`: the list is nonempty, the first chunk's
start equals `parent.start`, each subsequent chunk's start equals the
previous chunk's end, and the last chunk's end equals `parent.end` — no
gaps and no overlaps. -/
theorem claim_C1 (parent : Interval) (size : Nat)
    (h1 : parent.start < parent.«end») (h2 : 0 < size) :
    chunksOf parent size ≠ [] ∧
    (chunksOf parent size).head?.map Interval.start = some parent.start ∧
    List.Chain' (fun a b => b.start = a.«end») (chunksOf parent size) ∧
    (chunksOf parent size).getLast?.map Interval.«end» = some parent.«end» := by
  unfold chunksOf
  have hf : 0 < parent.«end» - parent.start := by omega
  refine ⟨?_, ?_, chunkLoop_chain _ _, chunkLoop_getLast h2 _ _ h1 (Nat.le_refl _)⟩
  · intro hnil
    have := @chunkLoop_head parent.chromosome parent.«end» size parent.start
      (parent.«end» - parent.start) h1 hf
    rw [hnil] at this
    exact Option.noConfusion this
  · rw [chunkLoop_head h1 hf]
    rfl

theorem claim_C1_witness :
    (0 : Nat) < 5 ∧ (0 : Nat) < 2 ∧
      (chunksOf ⟨"chr17", 0, 5⟩ 2 ≠ [] ∧
       (chunksOf ⟨"chr17", 0, 5⟩ 2).head?.map Interval.start = some 0 ∧
       List.Chain' (fun a b => b.start = a.«end») (chunksOf ⟨"chr17", 0, 5⟩ 2) ∧
       (chunksOf ⟨"chr17", 0, 5⟩ 2).getLast?.map Interval.«end» = some 5) :=
  ⟨by decide, by decide, claim_C1 ⟨"chr17", 0, 5⟩ 2 (by decide) (by decide)⟩

/-- C2: when the requested target width is not in the supported-widths
set, or the parent interval is degenerate (`width = 0`, the `Nat` rendering
of `width <= 0`), the `chunk` operation returns `InvalidIntervalError` and
emits no chunks (the error result carries no chunk list). -/
theorem claim_C2 (parent : Interval) (target_width : Nat)
    (supported_widths : List Nat)
    (h : target_width ∉ supported_widths ∨ parent.width = 0) :
    chunk parent target_width supported_widths =
      Except.error InvalidIntervalError.mk := by
  unfold chunk
  rw [if_pos (Or.symm h)]

theorem claim_C2_witness :
    ((524288 : Nat) ∉ [16384, 131072, 1048576] ∨
        (⟨"chr17", 5, 5⟩ : Interval).width = 0) ∧
      chunk ⟨"chr17", 16700000, 20500000⟩ 524288 [16384, 131072, 1048576] =
        Except.error InvalidIntervalError.mk :=
  ⟨by decide,
   claim_C2 ⟨"chr17", 16700000, 20500000⟩ 524288 [16384, 131072, 1048576]
     (Or.inl (by decide))⟩

/-- C3: for every parent with `start < end` and `target_width > 0`, every
emitted chunk except possibly the last has width exactly `target_width`,
and the last emitted chunk has width at most `target_width`, with equality
exactly when `parent.width` is an integer multiple of `target_width`. -/
theorem claim_C3 (parent : Interval) (size : Nat)
    (h1 : parent.start < parent.«end») (h2 : 0 < size) :
    (∀ c ∈ (chunksOf parent size).dropLast, c.width = size) ∧
    (∀ c, (chunksOf parent size).getLast? = some c →
      c.width ≤ size ∧ (c.width = size ↔ size ∣ parent.width)) := by
  unfold chunksOf
  constructor
  · intro c hc
    exact chunkLoop_dropLast_width h2 _ _ c hc
  · intro c hc
    have hrec := chunkLoop_getLast_width h2 _ _ h1 (Nat.le_refl _) c hc
    have hw : parent.width = parent.«end» - parent.start := rfl
    rw [hw, Nat.dvd_iff_mod_eq_zero]
    exact hrec

theorem claim_C3_witness :
    (0 : Nat) < 5 ∧ (0 : Nat) < 2 ∧
      ((∀ c ∈ (chunksOf ⟨"chr17", 0, 5⟩ 2).dropLast, c.width = 2) ∧
       (∀ c, (chunksOf ⟨"chr17", 0, 5⟩ 2).getLast? = some c →
         c.width ≤ 2 ∧ (c.width = 2 ↔ 2 ∣ (⟨"chr17", 0, 5⟩ : Interval).width))) :=
  ⟨by decide, by decide, claim_C3 ⟨"chr17", 0, 5⟩ 2 (by decide) (by decide)⟩

/-- C4 counterexample: on the concrete 17p11.2 locus with chunk size
524,288, the claimed final chunk `[20,369,984, 20,500,000)` is not among
the emitted chunks; the loop's actual last chunk is
`[20,370,016, 20,500,000)` (since 16,700,000 + 7 * 524,288 = 20,370,016),
so the claim as stated is false. -/
theorem claim_C4_counterexample :
    (chunksOf ⟨"chr17", LOCUS_17P11_2_START, LOCUS_17P11_2_END⟩ CHUNK_SIZE).getLast? =
        some ⟨"chr17", 20370016, 20500000⟩ ∧
      (⟨"chr17", 20369984, 20500000⟩ : Interval) ∉
        chunksOf ⟨"chr17", LOCUS_17P11_2_START, LOCUS_17P11_2_END⟩ CHUNK_SIZE := by
  decide

/-- C4 (amended): for parent `chr17:[16,700,000, 20,500,000)` with target
width 524,288, the loop emits exactly 7 full chunks of width 524,288
starting at 16,700,000, 17,224,288, 17,748,576, 18,272,864, 18,797,152,
19,321,440, 19,845,728, followed by one final chunk
`[20,370,016, 20,500,000)` of width 129,984. -/
theorem claim_C4 :
    chunksOf ⟨"chr17", LOCUS_17P11_2_START, LOCUS_17P11_2_END⟩ CHUNK_SIZE =
      [⟨"chr17", 16700000, 17224288⟩, ⟨"chr17", 17224288, 17748576⟩,
       ⟨"chr17", 17748576, 18272864⟩, ⟨"chr17", 18272864, 18797152⟩,
       ⟨"chr17", 18797152, 19321440⟩, ⟨"chr17", 19321440, 19845728⟩,
       ⟨"chr17", 19845728, 20370016⟩, ⟨"chr17", 20370016, 20500000⟩] := by
  decide

/-- C5: for every parent interval with `0 < width ≤ target_width` (both
the `width = target_width` and the `width < target_width` case), the loop
emits exactly one chunk, equal to the parent. -/
theorem claim_C5 (parent : Interval) (size : Nat)
    (h1 : 0 < parent.width) (h2 : parent.width ≤ size) :
    chunksOf parent size = [parent] := by
  obtain ⟨chrom, s, e⟩ := parent
  simp only [Interval.width] at h1 h2
  unfold chunksOf
  simp only
  obtain ⟨f, hf⟩ : ∃ f, e - s = f + 1 := ⟨e - s - 1, by omega⟩
  rw [hf, chunkLoop_step f (by omega)]
  have hm : min (s + size) e = e := by omega
  rw [hm, chunkLoop_of_stop_le f (Nat.le_refl e)]

theorem claim_C5_witness :
    (0 : Nat) < (⟨"chr17", 3, 5⟩ : Interval).width ∧
      (⟨"chr17", 3, 5⟩ : Interval).width ≤ 7 ∧
      chunksOf ⟨"chr17", 3, 5⟩ 7 = [⟨"chr17", 3, 5⟩] :=
  ⟨by decide, by decide, claim_C5 ⟨"chr17", 3, 5⟩ 7 (by decide) (by decide)⟩

/-- C6: the acceptance filter in the chunking loop is dead code: the loop
with the filter produces the same chunk sequence as the same loop with the
filter removed — for every parent interval and every target width (in
particular for all `start < end` and `target_width > 0`), because every
generated candidate has width `target_width` or width equal to the
remaining distance to `parent.end`. -/
theorem claim_C6 (parent : Interval) (size : Nat) :
    chunksOf parent size = chunksOfNoFilter parent size := by
  unfold chunksOf chunksOfNoFilter
  exact chunkLoop_eq_noFilter _ _ _ _ _

/-- C7: every emitted chunk preserves the `GenomicInterval` invariant:
its start is strictly below its end, and its chromosome equals the parent
interval's chromosome. -/
theorem claim_C7 (parent : Interval) (size : Nat) (h2 : 0 < size) :
    ∀ c ∈ chunksOf parent size,
      c.start < c.«end» ∧ c.chromosome = parent.chromosome := by
  intro c hc
  obtain ⟨hchrom, _, hlt, _⟩ := chunkLoop_mem h2 _ _ c hc
  exact ⟨hlt, hchrom⟩

theorem claim_C7_witness :
    (0 : Nat) < 2 ∧
      ∀ c ∈ chunksOf ⟨"chr17", 0, 5⟩ 2,
        c.start < c.«end» ∧ c.chromosome = (⟨"chr17", 0, 5⟩ : Interval).chromosome :=
  ⟨by decide, claim_C7 ⟨"chr17", 0, 5⟩ 2 (by decide)⟩

/-- C8: the chunk operation is deterministic and side-effect free: two
calls with identical parent interval, target width and supported-widths
set produce identical ordered chunk sequences (in this pure functional
model, no input can be mutated; purity is inherent in the embedding of
the source loop, which only reads its inputs). -/
theorem claim_C8 (p₁ p₂ : Interval) (w₁ w₂ : Nat) (s₁ s₂ : List Nat)
    (hp : p₁ = p₂) (hw : w₁ = w₂) (hs : s₁ = s₂) :
    chunk p₁ w₁ s₁ = chunk p₂ w₂ s₂ := by
  rw [hp, hw, hs]

theorem claim_C8_witness :
    chunk ⟨"chr17", 0, 5⟩ 2 [2] = chunk ⟨"chr17", 0, 5⟩ 2 [2] :=
  claim_C8 ⟨"chr17", 0, 5⟩ ⟨"chr17", 0, 5⟩ 2 2 [2] [2] rfl rfl rfl

/-- C9: the chunking loop terminates for every valid input: with
`target_width > 0` the loop variable strictly increases toward
`parent.end` on each iteration, and any iteration bound of at least
`parent.width` yields the same (complete) chunk sequence — the fuel-based
rendering that the source's unbounded loop is a total function over valid
inputs. -/
theorem claim_C9 (parent : Interval) (size : Nat) (h2 : 0 < size) :
    (∀ pos, pos < parent.«end» → pos < min (pos + size) parent.«end») ∧
    (∀ fuel, parent.«end» - parent.start ≤ fuel →
      chunkLoop parent.chromosome parent.«end» size parent.start fuel =
        chunksOf parent size) := by
  constructor
  · intro pos hpos
    omega
  · intro fuel hfuel
    unfold chunksOf
    exact chunkLoop_fuel_congr h2 fuel parent.start
      (parent.«end» - parent.start) hfuel (Nat.le_refl _)

theorem claim_C9_witness :
    (0 : Nat) < 2 ∧
      ((∀ pos, pos < (5 : Nat) → pos < min (pos + 2) 5) ∧
       (∀ fuel, (5 : Nat) - 0 ≤ fuel →
         chunkLoop "chr17" 5 2 0 fuel = chunksOf ⟨"chr17", 0, 5⟩ 2)) :=
  ⟨by decide, claim_C9 ⟨"chr17", 0, 5⟩ 2 (by decide)⟩

/-- C10: for every secret name, `get_api_key` returns the value of the
environment variable of that name whenever it is set to a non-empty
string, without consulting Colab secrets (the result is `ok v` for every
`userdataGet` and every `inColab`); when that variable is unset or empty
and the process is not running in Colab, it raises `ValueError`. -/
theorem claim_C10 (env : String → Option String) (inColab : Bool)
    (userdataGet : String → Except ColabSecretError String) (secret : String) :
    (∀ v, env secret = some v → v ≠ "" →
      get_api_key env inColab userdataGet secret = Except.ok v) ∧
    ((env secret = none ∨ env secret = some "") → inColab = false →
      get_api_key env inColab userdataGet secret =
        Except.error ("Cannot find API key with secret=" ++ secret ++ ".")) := by
  constructor
  · intro v hv hne
    unfold get_api_key
    rw [hv]
    have : v.isEmpty = false := by
      rcases h : v.isEmpty with _ | _
      · rfl
      · exact absurd ((String.isEmpty_iff v).mp h) hne
    simp only [this, Bool.false_eq_true, if_false]
  · intro henv hcolab
    subst hcolab
    have hemp : "".isEmpty = true := rfl
    rcases henv with h | h <;> simp [get_api_key, h, hemp]

theorem claim_C10_witness :
    get_api_key (fun _ => some "KEY") true
        (fun _ => Except.error ColabSecretError.timeoutException)
        "ALPHA_GENOME_API_KEY" = Except.ok "KEY" ∧
      get_api_key (fun _ => none) false (fun _ => Except.ok "IGNORED")
          "ALPHA_GENOME_API_KEY" =
        Except.error
          ("Cannot find API key with secret=" ++ "ALPHA_GENOME_API_KEY" ++ ".") :=
  ⟨(claim_C10 (fun _ => some "KEY") true
      (fun _ => Except.error ColabSecretError.timeoutException)
      "ALPHA_GENOME_API_KEY").1 "KEY" rfl (by decide),
   (claim_C10 (fun _ => none) false (fun _ => Except.ok "IGNORED")
      "ALPHA_GENOME_API_KEY").2 (Or.inl rfl) rfl⟩

end AlphaGenome
